import Mathlib

set_option maxRecDepth 16000

/-!
Verification of the adaptive quadtree spatial-partitioning engine of the
geoplot repository.

The repository's public entry point for quadtree aggregation is `aggplot`
(src/geoplot/geoplot.py).  Its quadtree branch (lines 955-984) resolves the
`nmin`/`nmax` thresholds, builds a `QuadTree` over the dataset, validates the
largest co-located observation group against `nmin`, runs
`quad.partition(nmin, nmax)` and paints each returned leaf cell.

The `QuadTree` class itself lives in `geoplot/quad.py`, which is not part of
the sources here; the spatial index and the recursive partitioner are
therefore modelled from the design specification (spec.md sections 3, 4.1 and
4.2), as marked on each such definition.  Everything taken from
`geoplot/geoplot.py` cites its line numbers.

Coordinates are modelled as rationals; point counts as naturals; the Python
integer thresholds as integers.
-/

/-- One Point Record: an original row index plus a 2D coordinate.  Models one
row of the dataset handed to `aggplot` (spec.md section 3, Point Record). -/
structure Point where
  idx : ℕ
  x : ℚ
  y : ℚ
deriving DecidableEq, Repr

/-- An axis-aligned Bounding Box (xmin, xmax, ymin, ymax) (spec.md section 3,
Bounding Box). -/
structure Box where
  xmin : ℚ
  xmax : ℚ
  ymin : ℚ
  ymax : ℚ
deriving DecidableEq, Repr

/-- A Cell of the partition: a Bounding Box together with the Point Records
falling inside it (spec.md section 3, Cell).  Leaf cells are what
`quad.partition` returns to `aggplot`. -/
structure Cell where
  box : Box
  pts : List Point
deriving DecidableEq, Repr

/-- The observation count `n` of a cell, as exposed to the caller
(`p.n` at geoplot.py line 975). -/
def Cell.n (c : Cell) : ℕ := c.pts.length

/-- A point lies inside a box (closed on all sides). -/
def ptInBox (p : Point) (b : Box) : Prop :=
  b.xmin ≤ p.x ∧ p.x ≤ b.xmax ∧ b.ymin ≤ p.y ∧ p.y ≤ b.ymax

/-- A plane position lies inside a box (closed on all sides). -/
def inBox (z : ℚ × ℚ) (b : Box) : Prop :=
  b.xmin ≤ z.1 ∧ z.1 ≤ b.xmax ∧ b.ymin ≤ z.2 ∧ z.2 ≤ b.ymax

/-- A plane position lies in the open interior of a box. -/
def inOpen (z : ℚ × ℚ) (b : Box) : Prop :=
  b.xmin < z.1 ∧ z.1 < b.xmax ∧ b.ymin < z.2 ∧ z.2 < b.ymax

/-- The set of plane positions covered by a box. -/
def boxSet (b : Box) : Set (ℚ × ℚ) := {z | inBox z b}

/-- Well-formedness of a box: nonnegative extents.  Degenerate (zero width or
height) boxes are legal (spec.md section 3). -/
def wfBox (b : Box) : Prop := b.xmin ≤ b.xmax ∧ b.ymin ≤ b.ymax

/-- Bounds-wise inclusion of one box in another. -/
def subBox (a b : Box) : Prop :=
  b.xmin ≤ a.xmin ∧ a.xmax ≤ b.xmax ∧ b.ymin ≤ a.ymin ∧ a.ymax ≤ b.ymax

/-- Two boxes touch at most along an edge: on some axis they lie on opposite
sides of a line. -/
def sideSep (a b : Box) : Prop :=
  a.xmax ≤ b.xmin ∨ b.xmax ≤ a.xmin ∨ a.ymax ≤ b.ymin ∨ b.ymax ≤ a.ymin

/-- All points of a list share one exact coordinate (spec.md section 3,
Coincidence Group; vacuously true of the empty list). -/
def allCoincident (P : List Point) : Prop :=
  ∀ p ∈ P, ∀ q ∈ P, p.x = q.x ∧ p.y = q.y

instance (P : List Point) : Decidable (allCoincident P) := by
  unfold allCoincident; infer_instance

/-- Modelled from the spec: the largest Coincidence Group size
(`max_coincidence()` of spec.md section 4.1; the source computes it as
`np.max([len(l) for l in quad.agg.values()])` at geoplot.py line 965, but the
`QuadTree.agg` grouping itself lives in the absent `geoplot/quad.py`).  For
each point we count the points sharing its exact coordinate and take the
maximum; the empty dataset gives 0. -/
def maxColoc (df : List Point) : ℕ :=
  (df.map (fun p => df.countP (fun q => decide (q.x = p.x ∧ q.y = p.y)))).foldr max 0

/-- Modelled from the spec: the dataset Bounding Box, "min/max over both axes"
(spec.md section 4.1, `build`), for a nonempty dataset given as head and
tail. -/
def datasetBox (p : Point) (rest : List Point) : Box :=
  { xmin := (rest.map Point.x).foldr min p.x
    xmax := (rest.map Point.x).foldr max p.x
    ymin := (rest.map Point.y).foldr min p.y
    ymax := (rest.map Point.y).foldr max p.y }

/-- Error taxonomy of the engine.  `configError` models the `ValueError`
raised at geoplot.py lines 966-968, which the specification calls a
`ConfigurationError`: it names the requested `nmin` and the observed largest
co-located count.  `emptyDataset` models the `ConfigurationError` on an empty
input dataset (spec.md section 4.1). -/
inductive AggError where
  | emptyDataset : AggError
  | configError (nmin : ℤ) (coloc : ℕ) : AggError
deriving DecidableEq, Repr

/-- Modelled from the spec: `build(points)` of the Spatial Index (spec.md
section 4.1): computes min/max over both axes to form the Bounding Box and
fails with a `ConfigurationError` if the dataset is empty.  The root cell
carries the full dataset. -/
def quadBuild : List Point → Except AggError Cell
  | [] => .error .emptyDataset
  | p :: rest => .ok { box := datasetBox p rest, pts := p :: rest }

/-- Modelled from the spec: one split of a Bounding Box `B` at its arithmetic
midpoint, assigning each point of `P` to exactly one child with the half-open
convention "x < midpoint goes left, x ≥ midpoint goes right; same for y"
(spec.md section 4.2, splitting geometry).  The degenerate-box guard (spec.md
section 4.2) splits a zero-width box only along y and a zero-height box only
along x; the doubly degenerate case is handled by the caller. -/
def splitCell (B : Box) (P : List Point) : List Cell :=
  let mx : ℚ := (B.xmin + B.xmax) / 2
  let my : ℚ := (B.ymin + B.ymax) / 2
  if B.xmin = B.xmax then
    [⟨⟨B.xmin, B.xmax, B.ymin, my⟩, P.filter (fun p => decide (p.y < my))⟩,
     ⟨⟨B.xmin, B.xmax, my, B.ymax⟩, P.filter (fun p => !decide (p.y < my))⟩]
  else if B.ymin = B.ymax then
    [⟨⟨B.xmin, mx, B.ymin, B.ymax⟩, P.filter (fun p => decide (p.x < mx))⟩,
     ⟨⟨mx, B.xmax, B.ymin, B.ymax⟩, P.filter (fun p => !decide (p.x < mx))⟩]
  else
    [⟨⟨B.xmin, mx, B.ymin, my⟩,
      (P.filter (fun p => decide (p.y < my))).filter (fun p => decide (p.x < mx))⟩,
     ⟨⟨mx, B.xmax, B.ymin, my⟩,
      (P.filter (fun p => decide (p.y < my))).filter (fun p => !decide (p.x < mx))⟩,
     ⟨⟨B.xmin, mx, my, B.ymax⟩,
      (P.filter (fun p => !decide (p.y < my))).filter (fun p => decide (p.x < mx))⟩,
     ⟨⟨mx, B.xmax, my, B.ymax⟩,
      (P.filter (fun p => !decide (p.y < my))).filter (fun p => !decide (p.x < mx))⟩]

/-- Modelled from the spec: the recursive split decision of the Partitioner
(spec.md section 4.2), with an explicit fuel parameter standing in for the
recursion (the fuel passed by `partition` below is proved large enough that a
cell whose fuel runs out already consists of a single Coincidence Group and
would be a leaf anyway).  For a cell holding `n` points:
a doubly degenerate box is a forced leaf (degenerate-box guard);
rule 1: if `n > nmax` the cell must split, unconditionally;
rule 2: if `n ≤ nmin` the cell is a leaf;
rule 3: otherwise split tentatively and accept the split only when every
resulting non-empty child holds at least `nmin` points (the split decision the
`nmin` parameter is documented to make at geoplot.py lines 730-740: a child
with fewer than `nmin` points causes the parent to be returned instead),
otherwise keep the cell as a leaf. -/
def partitionFuel (nmin nmax : ℤ) : ℕ → Box → List Point → List Cell
  | 0, B, P => [⟨B, P⟩]
  | fuel + 1, B, P =>
    if B.xmin = B.xmax ∧ B.ymin = B.ymax then [⟨B, P⟩]
    else if nmax < (P.length : ℤ) then
      (splitCell B P).flatMap (fun c => partitionFuel nmin nmax fuel c.box c.pts)
    else if (P.length : ℤ) ≤ nmin then [⟨B, P⟩]
    else if (splitCell B P).all
        (fun c => c.pts.isEmpty || decide (nmin ≤ (c.pts.length : ℤ))) then
      (splitCell B P).flatMap (fun c => partitionFuel nmin nmax fuel c.box c.pts)
    else [⟨B, P⟩]

/-- Modelled from the spec: the same split decision as `partitionFuel`, but
each returned leaf is annotated with a provenance flag recording whether it
lies below a split forced by rule 1 (the `n > nmax` ceiling rule).  The flag
is the ghost bookkeeping needed to state the floor invariant's forced-split
exemption; erasing it recovers `partitionFuel`. -/
def partitionAnn (nmin nmax : ℤ) : Bool → ℕ → Box → List Point → List (Cell × Bool)
  | f, 0, B, P => [(⟨B, P⟩, f)]
  | f, fuel + 1, B, P =>
    if B.xmin = B.xmax ∧ B.ymin = B.ymax then [(⟨B, P⟩, f)]
    else if nmax < (P.length : ℤ) then
      (splitCell B P).flatMap (fun c => partitionAnn nmin nmax true fuel c.box c.pts)
    else if (P.length : ℤ) ≤ nmin then [(⟨B, P⟩, f)]
    else if (splitCell B P).all
        (fun c => c.pts.isEmpty || decide (nmin ≤ (c.pts.length : ℤ))) then
      (splitCell B P).flatMap (fun c => partitionAnn nmin nmax f fuel c.box c.pts)
    else [(⟨B, P⟩, f)]

/-- An upper natural bound on the horizontal extent of a box, read off the
numerators: |q| ≤ |q.num| for every rational q. -/
def widthNatBound (b : Box) : ℕ := b.xmax.num.natAbs + b.xmin.num.natAbs

/-- An upper natural bound on the vertical extent of a box. -/
def heightNatBound (b : Box) : ℕ := b.ymax.num.natAbs + b.ymin.num.natAbs

/-- The largest x-coordinate denominator of a dataset (at least 1). -/
def denBoundX (P : List Point) : ℕ := (P.map (fun p => p.x.den)).foldr max 1

/-- The largest y-coordinate denominator of a dataset (at least 1). -/
def denBoundY (P : List Point) : ℕ := (P.map (fun p => p.y.den)).foldr max 1

/-- A positive lower bound on the gap between any two distinct x-coordinates
of the dataset: two distinct rationals with denominators at most `d` differ
by at least `1 / d²`. -/
def sepX (P : List Point) : ℚ := 1 / ((denBoundX P : ℚ) * (denBoundX P : ℚ))

/-- A positive lower bound on the gap between any two distinct y-coordinates
of the dataset. -/
def sepY (P : List Point) : ℚ := 1 / ((denBoundY P : ℚ) * (denBoundY P : ℚ))

/-- Recursion depth that provably suffices for the partitioner: after this
many halvings the cell extents drop below the minimal coordinate gaps, so
every surviving cell is a single Coincidence Group.  This is a fuel bound for
the shallow embedding, not a quantity of the source program. -/
def fuelBound (c : Cell) : ℕ :=
  widthNatBound c.box * denBoundX c.pts * denBoundX c.pts +
    heightNatBound c.box * denBoundY c.pts * denBoundY c.pts + 1

/-- Modelled from the spec: `partition(nmin, nmax)` of the Partitioner
(spec.md section 4.2): run the recursive split decision from the root cell
and return the flat sequence of leaf cells. -/
def partition (nmin nmax : ℤ) (c : Cell) : List Cell :=
  partitionFuel nmin nmax (fuelBound c) c.box c.pts

/-- Default resolution of `nmax` (geoplot.py line 957):
`nmax = nmax if nmax else len(df)`.  Python truthiness means both an absent
and a zero `nmax` are replaced by the total point count. -/
def resolveNmax (df : List Point) : Option ℤ → ℤ
  | none => (df.length : ℤ)
  | some v => if v = 0 then (df.length : ℤ) else v

/-- Default resolution of `nmin` (geoplot.py line 958):
`nmin = nmin if nmin else np.min([20, int(0.05 * len(df))])`.  Python
truthiness means both an absent and a zero `nmin` are replaced by the
default `min(20, ⌊0.05·len(df)⌋)`. -/
def resolveNmin (df : List Point) : Option ℤ → ℤ
  | none => min 20 ((df.length : ℤ) * 5 / 100)
  | some v => if v = 0 then min 20 ((df.length : ℤ) * 5 / 100) else v

/-- The quadtree branch of `aggplot` (geoplot.py lines 955-970): resolve the
threshold defaults, build the quadtree, reject the request when the largest
co-located group strictly exceeds `nmin` (raising the error that names both
numbers), and otherwise run the partition. -/
def aggQuad (df : List Point) (nminOpt nmaxOpt : Option ℤ) :
    Except AggError (List Cell) :=
  let nmax := resolveNmax df nmaxOpt
  let nmin := resolveNmin df nminOpt
  match quadBuild df with
  | .error e => .error e
  | .ok qt =>
    if (maxColoc df : ℤ) > nmin then .error (.configError nmin (maxColoc df))
    else .ok (partition nmin nmax qt)

/-- The per-leaf rendering decision of `aggplot` (geoplot.py line 975):
`color = cmap.to_rgba(agg(p.data[hue_col])) if p.n > nsig else "white"`.
`some` carries the aggregated summary statistic, `none` is the white
"insufficient data" patch. -/
def leafColor (agg : List ℚ → ℚ) (nsig : ℤ) (n : ℕ) (vals : List ℚ) : Option ℚ :=
  if nsig < (n : ℤ) then some (agg vals) else none

/-- The positions covered by a collection of cells. -/
def coveredBy (cs : List Cell) (z : ℚ × ℚ) : Prop := ∃ c ∈ cs, inBox z c.box

/-- The union of the bounding boxes of a collection of cells, as a set. -/
def cellUnion (cs : List Cell) : Set (ℚ × ℚ) := {z | coveredBy cs z}

/-- Interiors of two cells are disjoint. -/
def intDisj (a b : Cell) : Prop :=
  ∀ z : ℚ × ℚ, inOpen z a.box → inOpen z b.box → False

/-- The concatenation of the point lists of a collection of cells. -/
def joinPts (cs : List Cell) : List Point := (cs.map Cell.pts).flatten

/-- Example dataset: five observations sharing one exact coordinate. -/
def dfColoc5 : List Point :=
  [⟨0, 0, 0⟩, ⟨1, 0, 0⟩, ⟨2, 0, 0⟩, ⟨3, 0, 0⟩, ⟨4, 0, 0⟩]

/-- Example dataset: three points at pairwise distinct coordinates. -/
def dfTri : List Point := [⟨0, 0, 0⟩, ⟨1, 2, 0⟩, ⟨2, 0, 2⟩]

/-- The root cell built over `dfTri`. -/
def qtTri : Cell := ⟨⟨0, 2, 0, 2⟩, dfTri⟩

/-- Example dataset: a single point. -/
def dfOne : List Point := [⟨0, 5, 5⟩]

/-- Example dataset: two points at distinct coordinates. -/
def dfPair : List Point := [⟨0, 0, 0⟩, ⟨1, 1, 1⟩]

/-- The root cell built over `dfPair`. -/
def qtPair : Cell := ⟨⟨0, 1, 0, 1⟩, dfPair⟩

/-- Example dataset: twenty-one points spread along a line. -/
def df21 : List Point := (List.range 21).map (fun i => ⟨i, (i : ℚ), 0⟩)

/-- The root cell built over `df21`. -/
def qt21 : Cell := ⟨⟨0, 20, 0, 0⟩, df21⟩

/-! ## General helper lemmas -/

theorem subBox_refl (b : Box) : subBox b b :=
  ⟨le_refl _, le_refl _, le_refl _, le_refl _⟩

theorem subBox_trans {a b c : Box} (h1 : subBox a b) (h2 : subBox b c) :
    subBox a c := by
  obtain ⟨h11, h12, h13, h14⟩ := h1
  obtain ⟨h21, h22, h23, h24⟩ := h2
  exact ⟨le_trans h21 h11, le_trans h12 h22, le_trans h23 h13, le_trans h14 h24⟩

theorem intDisj_of_sideSep {a b : Cell} {C D : Box}
    (hsa : subBox a.box C) (hsb : subBox b.box D) (hs : sideSep C D) :
    intDisj a b := by
  intro z hza hzb
  obtain ⟨ha1, ha2, ha3, ha4⟩ := hsa
  obtain ⟨hb1, hb2, hb3, hb4⟩ := hsb
  obtain ⟨hz1, hz2, hz3, hz4⟩ := hza
  obtain ⟨hw1, hw2, hw3, hw4⟩ := hzb
  rcases hs with h | h | h | h <;> linarith

/-! ## splitCell lemmas -/

theorem splitCell_mem_cases (B : Box) (P : List Point) (c : Cell)
    (hc : c ∈ splitCell B P) :
    (B.xmin = B.xmax ∧
      (c = ⟨⟨B.xmin, B.xmax, B.ymin, (B.ymin + B.ymax) / 2⟩,
          P.filter (fun p => decide (p.y < (B.ymin + B.ymax) / 2))⟩ ∨
       c = ⟨⟨B.xmin, B.xmax, (B.ymin + B.ymax) / 2, B.ymax⟩,
          P.filter (fun p => !decide (p.y < (B.ymin + B.ymax) / 2))⟩)) ∨
    (B.xmin ≠ B.xmax ∧ B.ymin = B.ymax ∧
      (c = ⟨⟨B.xmin, (B.xmin + B.xmax) / 2, B.ymin, B.ymax⟩,
          P.filter (fun p => decide (p.x < (B.xmin + B.xmax) / 2))⟩ ∨
       c = ⟨⟨(B.xmin + B.xmax) / 2, B.xmax, B.ymin, B.ymax⟩,
          P.filter (fun p => !decide (p.x < (B.xmin + B.xmax) / 2))⟩)) ∨
    (B.xmin ≠ B.xmax ∧ B.ymin ≠ B.ymax ∧
      (c = ⟨⟨B.xmin, (B.xmin + B.xmax) / 2, B.ymin, (B.ymin + B.ymax) / 2⟩,
          (P.filter (fun p => decide (p.y < (B.ymin + B.ymax) / 2))).filter
            (fun p => decide (p.x < (B.xmin + B.xmax) / 2))⟩ ∨
       c = ⟨⟨(B.xmin + B.xmax) / 2, B.xmax, B.ymin, (B.ymin + B.ymax) / 2⟩,
          (P.filter (fun p => decide (p.y < (B.ymin + B.ymax) / 2))).filter
            (fun p => !decide (p.x < (B.xmin + B.xmax) / 2))⟩ ∨
       c = ⟨⟨B.xmin, (B.xmin + B.xmax) / 2, (B.ymin + B.ymax) / 2, B.ymax⟩,
          (P.filter (fun p => !decide (p.y < (B.ymin + B.ymax) / 2))).filter
            (fun p => decide (p.x < (B.xmin + B.xmax) / 2))⟩ ∨
       c = ⟨⟨(B.xmin + B.xmax) / 2, B.xmax, (B.ymin + B.ymax) / 2, B.ymax⟩,
          (P.filter (fun p => !decide (p.y < (B.ymin + B.ymax) / 2))).filter
            (fun p => !decide (p.x < (B.xmin + B.xmax) / 2))⟩)) := by
  simp only [splitCell] at hc
  by_cases hx : B.xmin = B.xmax
  · rw [if_pos hx] at hc
    refine Or.inl ⟨hx, ?_⟩
    simpa using hc
  · rw [if_neg hx] at hc
    by_cases hy : B.ymin = B.ymax
    · rw [if_pos hy] at hc
      refine Or.inr (Or.inl ⟨hx, hy, ?_⟩)
      simpa using hc
    · rw [if_neg hy] at hc
      refine Or.inr (Or.inr ⟨hx, hy, ?_⟩)
      simpa using hc

theorem splitCell_pts_sublist (B : Box) (P : List Point) :
    ∀ c ∈ splitCell B P, c.pts.Sublist P := by
  intro c hc
  rcases splitCell_mem_cases B P c hc with ⟨hx, h | h⟩ | ⟨hx, hy, h | h⟩ |
      ⟨hx, hy, h | h | h | h⟩ <;> subst h <;>
    first
      | exact List.filter_sublist P
      | exact (List.filter_sublist _).trans (List.filter_sublist P)

theorem splitCell_pts_inBox (B : Box) (P : List Point)
    (hP : ∀ p ∈ P, ptInBox p B) :
    ∀ c ∈ splitCell B P, ∀ p ∈ c.pts, ptInBox p c.box := by
  intro c hc p hp
  rcases splitCell_mem_cases B P c hc with ⟨hx, h | h⟩ | ⟨hx, hy, h | h⟩ |
      ⟨hx, hy, h | h | h | h⟩ <;> subst h <;>
    simp only [List.mem_filter, decide_eq_true_eq, Bool.not_eq_true',
      decide_eq_false_iff_not, not_lt] at hp <;>
    [ obtain ⟨hmem, hcond⟩ := hp;
      obtain ⟨hmem, hcond⟩ := hp;
      obtain ⟨hmem, hcond⟩ := hp;
      obtain ⟨hmem, hcond⟩ := hp;
      obtain ⟨⟨hmem, hcy⟩, hcx⟩ := hp;
      obtain ⟨⟨hmem, hcy⟩, hcx⟩ := hp;
      obtain ⟨⟨hmem, hcy⟩, hcx⟩ := hp;
      obtain ⟨⟨hmem, hcy⟩, hcx⟩ := hp ] <;>
    obtain ⟨hb1, hb2, hb3, hb4⟩ := hP p hmem <;>
    refine ⟨?_, ?_, ?_, ?_⟩ <;> simp only [ptInBox] <;> linarith

theorem splitCell_dims (B : Box) (P : List Point) :
    ∀ c ∈ splitCell B P,
      c.box.xmax - c.box.xmin ≤ (B.xmax - B.xmin) / 2 ∧
      c.box.ymax - c.box.ymin ≤ (B.ymax - B.ymin) / 2 := by
  intro c hc
  rcases splitCell_mem_cases B P c hc with ⟨hx, h | h⟩ | ⟨hx, hy, h | h⟩ |
      ⟨hx, hy, h | h | h | h⟩ <;> subst h <;>
    exact ⟨by simp only []; linarith, by simp only []; linarith⟩

theorem splitCell_wf_sub (B : Box) (P : List Point) (hwf : wfBox B) :
    ∀ c ∈ splitCell B P, wfBox c.box ∧ subBox c.box B := by
  intro c hc
  obtain ⟨hw1, hw2⟩ := hwf
  rcases splitCell_mem_cases B P c hc with ⟨hx, h | h⟩ | ⟨hx, hy, h | h⟩ |
      ⟨hx, hy, h | h | h | h⟩ <;> subst h <;>
    exact ⟨⟨by simp only []; linarith, by simp only []; linarith⟩,
      by simp only []; linarith, by simp only []; linarith,
      by simp only []; linarith, by simp only []; linarith⟩

theorem splitCell_sideSep (B : Box) (P : List Point) :
    List.Pairwise (fun a b => sideSep a.box b.box) (splitCell B P) := by
  simp only [splitCell]
  by_cases hx : B.xmin = B.xmax
  · rw [if_pos hx]
    refine List.Pairwise.cons ?_ (List.Pairwise.cons ?_ List.Pairwise.nil)
    · intro b hb
      rcases List.mem_cons.mp hb with rfl | hb
      · exact Or.inr (Or.inr (Or.inl (le_refl _)))
      · exact absurd hb (List.not_mem_nil b)
    · intro b hb; exact absurd hb (List.not_mem_nil b)
  · rw [if_neg hx]
    by_cases hy : B.ymin = B.ymax
    · rw [if_pos hy]
      refine List.Pairwise.cons ?_ (List.Pairwise.cons ?_ List.Pairwise.nil)
      · intro b hb
        rcases List.mem_cons.mp hb with rfl | hb
        · exact Or.inl (le_refl _)
        · exact absurd hb (List.not_mem_nil b)
      · intro b hb; exact absurd hb (List.not_mem_nil b)
    · rw [if_neg hy]
      refine List.Pairwise.cons ?_ (List.Pairwise.cons ?_
        (List.Pairwise.cons ?_ (List.Pairwise.cons ?_ List.Pairwise.nil)))
      · intro b hb
        rcases List.mem_cons.mp hb with rfl | hb
        · exact Or.inl (le_refl _)
        rcases List.mem_cons.mp hb with rfl | hb
        · exact Or.inr (Or.inr (Or.inl (le_refl _)))
        rcases List.mem_cons.mp hb with rfl | hb
        · exact Or.inl (le_refl _)
        · exact absurd hb (List.not_mem_nil b)
      · intro b hb
        rcases List.mem_cons.mp hb with rfl | hb
        · exact Or.inr (Or.inr (Or.inl (le_refl _)))
        rcases List.mem_cons.mp hb with rfl | hb
        · exact Or.inr (Or.inr (Or.inl (le_refl _)))
        · exact absurd hb (List.not_mem_nil b)
      · intro b hb
        rcases List.mem_cons.mp hb with rfl | hb
        · exact Or.inl (le_refl _)
        · exact absurd hb (List.not_mem_nil b)
      · intro b hb; exact absurd hb (List.not_mem_nil b)

theorem splitCell_perm (B : Box) (P : List Point) :
    List.Perm (joinPts (splitCell B P)) P := by
  simp only [splitCell]
  by_cases hx : B.xmin = B.xmax
  · rw [if_pos hx]
    simp only [joinPts, List.map_cons, List.map_nil, List.flatten_cons,
      List.flatten_nil, List.append_nil]
    exact List.filter_append_perm _ P
  · rw [if_neg hx]
    by_cases hy : B.ymin = B.ymax
    · rw [if_pos hy]
      simp only [joinPts, List.map_cons, List.map_nil, List.flatten_cons,
        List.flatten_nil, List.append_nil]
      exact List.filter_append_perm _ P
    · rw [if_neg hy]
      simp only [joinPts, List.map_cons, List.map_nil, List.flatten_cons,
        List.flatten_nil, List.append_nil]
      have hb := List.filter_append_perm
        (fun p => decide (p.x < (B.xmin + B.xmax) / 2))
        (P.filter (fun p => decide (p.y < (B.ymin + B.ymax) / 2)))
      have ht := List.filter_append_perm
        (fun p => decide (p.x < (B.xmin + B.xmax) / 2))
        (P.filter (fun p => !decide (p.y < (B.ymin + B.ymax) / 2)))
      have hP := List.filter_append_perm
        (fun p => decide (p.y < (B.ymin + B.ymax) / 2)) P
      rw [← List.append_assoc]
      exact (hb.append ht).trans hP

theorem splitCell_cover (B : Box) (P : List Point) (hwf : wfBox B)
    (z : ℚ × ℚ) : (∃ c ∈ splitCell B P, inBox z c.box) ↔ inBox z B := by
  obtain ⟨hw1, hw2⟩ := hwf
  simp only [splitCell]
  by_cases hx : B.xmin = B.xmax
  · rw [if_pos hx]
    simp only [List.mem_cons, List.mem_singleton, List.not_mem_nil, or_false,
      exists_eq_or_imp, exists_eq_left, inBox]
    constructor
    · rintro (⟨h1, h2, h3, h4⟩ | ⟨h1, h2, h3, h4⟩) <;>
        exact ⟨by linarith, by linarith, by linarith, by linarith⟩
    · rintro ⟨h1, h2, h3, h4⟩
      by_cases hz : z.2 ≤ (B.ymin + B.ymax) / 2
      · exact Or.inl ⟨by linarith, by linarith, by linarith, by linarith⟩
      · exact Or.inr ⟨by linarith, by linarith, by linarith, by linarith⟩
  · rw [if_neg hx]
    by_cases hy : B.ymin = B.ymax
    · rw [if_pos hy]
      simp only [List.mem_cons, List.mem_singleton, List.not_mem_nil, or_false,
        exists_eq_or_imp, exists_eq_left, inBox]
      constructor
      · rintro (⟨h1, h2, h3, h4⟩ | ⟨h1, h2, h3, h4⟩) <;>
          exact ⟨by linarith, by linarith, by linarith, by linarith⟩
      · rintro ⟨h1, h2, h3, h4⟩
        by_cases hz : z.1 ≤ (B.xmin + B.xmax) / 2
        · exact Or.inl ⟨by linarith, by linarith, by linarith, by linarith⟩
        · exact Or.inr ⟨by linarith, by linarith, by linarith, by linarith⟩
    · rw [if_neg hy]
      simp only [List.mem_cons, List.mem_singleton, List.not_mem_nil, or_false,
        exists_eq_or_imp, exists_eq_left, inBox]
      constructor
      · rintro (⟨h1, h2, h3, h4⟩ | ⟨h1, h2, h3, h4⟩ | ⟨h1, h2, h3, h4⟩ |
            ⟨h1, h2, h3, h4⟩) <;>
          exact ⟨by linarith, by linarith, by linarith, by linarith⟩
      · rintro ⟨h1, h2, h3, h4⟩
        by_cases hzx : z.1 ≤ (B.xmin + B.xmax) / 2 <;>
          by_cases hzy : z.2 ≤ (B.ymin + B.ymax) / 2
        · exact Or.inl ⟨by linarith, by linarith, by linarith, by linarith⟩
        · exact Or.inr (Or.inr (Or.inl
            ⟨by linarith, by linarith, by linarith, by linarith⟩))
        · exact Or.inr (Or.inl
            ⟨by linarith, by linarith, by linarith, by linarith⟩)
        · exact Or.inr (Or.inr (Or.inr
            ⟨by linarith, by linarith, by linarith, by linarith⟩))

theorem le_foldr_max (l : List ℕ) (b : ℕ) : ∀ a ∈ l, a ≤ l.foldr max b := by
  induction l with
  | nil => intro a ha; exact absurd ha (List.not_mem_nil a)
  | cons x xs ih =>
    intro a ha
    rcases List.mem_cons.mp ha with h | h
    · subst h; exact le_max_left _ _
    · exact le_trans (ih a h) (le_max_right _ _)

theorem coordCount_le_maxColoc (df : List Point) (p : Point) (hp : p ∈ df) :
    df.countP (fun q => decide (q.x = p.x ∧ q.y = p.y)) ≤ maxColoc df :=
  le_foldr_max _ 0 _ (List.mem_map_of_mem _ hp)

theorem one_le_maxColoc (df : List Point) (hne : df ≠ []) : 1 ≤ maxColoc df := by
  obtain ⟨p, hp⟩ := List.exists_mem_of_ne_nil df hne
  refine le_trans ?_ (coordCount_le_maxColoc df p hp)
  exact List.countP_pos_iff.mpr ⟨p, hp, by simp⟩

theorem quadBuild_ok (df : List Point) (hne : df ≠ []) :
    ∃ qt, quadBuild df = .ok qt ∧ qt.pts = df := by
  cases df with
  | nil => exact absurd rfl hne
  | cons p rest => exact ⟨_, rfl, rfl⟩

theorem aggQuad_eq_error (df : List Point) (nmOpt nxOpt : Option ℤ)
    (hne : df ≠ []) (h : resolveNmin df nmOpt < (maxColoc df : ℤ)) :
    aggQuad df nmOpt nxOpt =
      .error (.configError (resolveNmin df nmOpt) (maxColoc df)) := by
  obtain ⟨qt, hq, -⟩ := quadBuild_ok df hne
  simp only [aggQuad, hq]
  rw [if_pos h]

theorem aggQuad_eq_ok (df : List Point) (nmOpt nxOpt : Option ℤ) (qt : Cell)
    (hq : quadBuild df = .ok qt)
    (h : (maxColoc df : ℤ) ≤ resolveNmin df nmOpt) :
    aggQuad df nmOpt nxOpt =
      .ok (partition (resolveNmin df nmOpt) (resolveNmax df nxOpt) qt) := by
  simp only [aggQuad, hq]
  rw [if_neg (not_lt.mpr h)]

/-! ## C1: pre-flight rejection of over-large coincidence groups -/

/-- C1: for every dataset whose largest Coincidence Group strictly exceeds the
requested `nmin`, the quadtree aggregation fails with the configuration error
naming both the requested `nmin` and the observed maximum co-located count;
the partitioner is never reached (the result is the error, not a partition
output). -/
theorem c1_preflight_rejection (df : List Point) (v : ℤ) (nxOpt : Option ℤ)
    (hne : df ≠ []) (hv : v ≠ 0) (h : v < (maxColoc df : ℤ)) :
    aggQuad df (some v) nxOpt = .error (.configError v (maxColoc df)) := by
  have hr : resolveNmin df (some v) = v := by simp [resolveNmin, hv]
  rw [show (AggError.configError v (maxColoc df)) =
      .configError (resolveNmin df (some v)) (maxColoc df) by rw [hr]]
  exact aggQuad_eq_error df (some v) nxOpt hne (by rw [hr]; exact h)

/-- Witness for C1: five points sharing one coordinate, requested `nmin = 3`:
the call fails with the error naming 3 and 5. -/
theorem c1_preflight_rejection_witness :
    maxColoc dfColoc5 = 5 ∧
      aggQuad dfColoc5 (some 3) none = .error (.configError 3 (maxColoc dfColoc5)) :=
  ⟨by decide, c1_preflight_rejection dfColoc5 3 none (by decide) (by decide) (by decide)⟩

/-! ## C6: threshold defaults -/

/-- C6: when the caller supplies neither threshold, `nmax` defaults to the
total point count and `nmin` to `min(20, 5 percent of the total point count)`
(integer truncation), and the partition is then run with exactly these
defaulted values. -/
theorem c6_default_thresholds (df : List Point) (qt : Cell)
    (hq : quadBuild df = .ok qt) :
    resolveNmax df none = (df.length : ℤ) ∧
    resolveNmin df none = min 20 ((df.length : ℤ) / 20) ∧
    ((maxColoc df : ℤ) ≤ resolveNmin df none →
      aggQuad df none none =
        .ok (partition (resolveNmin df none) (resolveNmax df none) qt)) := by
  refine ⟨rfl, ?_, fun h => aggQuad_eq_ok df none none qt hq h⟩
  show min 20 ((df.length : ℤ) * 5 / 100) = min 20 ((df.length : ℤ) / 20)
  have : (df.length : ℤ) * 5 / 100 = (df.length : ℤ) / 20 := by
    calc (df.length : ℤ) * 5 / 100 = 5 * (df.length : ℤ) / (5 * 20) := by
          rw [mul_comm]; norm_num
      _ = (df.length : ℤ) / 20 := Int.mul_ediv_mul_of_pos _ _ (by norm_num)
  rw [this]

/-- Witness for C6: twenty-one collinear points; the defaults resolve to
`nmax = 21` and `nmin = min 20 1 = 1`, and the aggregation runs the partition
with them. -/
theorem c6_default_thresholds_witness :
    resolveNmax df21 none = 21 ∧ resolveNmin df21 none = 1 ∧
      aggQuad df21 none none =
        .ok (partition (resolveNmin df21 none) (resolveNmax df21 none) qt21) := by
  have h := c6_default_thresholds df21 qt21 rfl
  exact ⟨by decide, by decide, h.2.2 (by decide)⟩

/-! ## C7: threshold validation (corrected) -/

/-- Counterexample to C7 as stated: with the supplied thresholds invalid
(`nmax = 2 < nmin = 5`), the quadtree aggregation does not fail: it proceeds
to produce a partition output. -/
theorem c7_invalid_thresholds_counterexample :
    (2 : ℤ) < 5 ∧ ∃ out, aggQuad dfTri (some 5) (some 2) = .ok out :=
  ⟨by decide, ⟨_, aggQuad_eq_ok dfTri (some 5) (some 2) qtTri rfl (by decide)⟩⟩

/-- C7 amended: on a nonempty dataset the only pre-partition failure is the
coincidence check against the truthiness-resolved `nmin`: the aggregation
errors exactly when the largest co-located count strictly exceeds it.  In
particular every supplied negative `nmin` fails (named in the error), while
`nmax < nmin` is never rejected and a supplied `nmin = 0` is silently
replaced by the default rather than rejected. -/
theorem c7_only_coincidence_guard (df : List Point) (nmOpt nxOpt : Option ℤ)
    (hne : df ≠ []) :
    ((∃ e, aggQuad df nmOpt nxOpt = .error e) ↔
      resolveNmin df nmOpt < (maxColoc df : ℤ)) ∧
    (∀ v : ℤ, v < 0 →
      aggQuad df (some v) nxOpt = .error (.configError v (maxColoc df))) := by
  constructor
  · constructor
    · rintro ⟨e, he⟩
      by_contra hlt
      obtain ⟨qt, hq, -⟩ := quadBuild_ok df hne
      rw [aggQuad_eq_ok df nmOpt nxOpt qt hq (not_lt.mp hlt)] at he
      exact Except.noConfusion he
    · intro h
      exact ⟨_, aggQuad_eq_error df nmOpt nxOpt hne h⟩
  · intro v hv
    have hr : resolveNmin df (some v) = v := by
      simp [resolveNmin, show v ≠ 0 from ne_of_lt hv]
    have hlt : resolveNmin df (some v) < (maxColoc df : ℤ) := by
      rw [hr]
      calc v < 0 := hv
        _ < (1 : ℤ) := by norm_num
        _ ≤ (maxColoc df : ℤ) := by exact_mod_cast one_le_maxColoc df hne
    have := aggQuad_eq_error df (some v) nxOpt hne hlt
    rwa [hr] at this

/-- Witness for C7 (amended): at the three-point dataset with supplied
`nmin = 5`, `nmax = 2`, the error criterion evaluates to false on both
sides. -/
theorem c7_only_coincidence_guard_witness :
    (∃ e, aggQuad dfTri (some 5) (some 2) = .error e) ↔
      resolveNmin dfTri (some 5) < (maxColoc dfTri : ℤ) :=
  (c7_only_coincidence_guard dfTri (some 5) (some 2) (by decide)).1

/-! ## C8: empty dataset -/

/-- C8: building the Spatial Index over the empty dataset fails with the
empty-dataset configuration error, and the aggregation surfaces exactly this
error to the caller for every threshold choice, never downgrading it. -/
theorem c8_empty_dataset_rejected :
    quadBuild ([] : List Point) = .error .emptyDataset ∧
    ∀ nmOpt nxOpt : Option ℤ, aggQuad [] nmOpt nxOpt = .error .emptyDataset :=
  ⟨rfl, fun _ _ => rfl⟩

/-! ## C9: significance threshold (code bug at the boundary) -/

/-- C9, evaluated at the failing boundary input: a leaf whose count `n`
equals `nsig` (here both 5) is painted as the white "insufficient data"
sentinel even though its count does not fall below `nsig`; the docstring
(geoplot.py lines 741-745) and the claim say only leaves with fewer than
`nsig` observations are left unaggregated. -/
theorem c9_nsig_boundary_bug :
    leafColor (fun vs => vs.foldr (fun a b => a + b) 0) 5 5 [1, 2, 3, 4, 5] = none ∧
      ¬ ((5 : ℤ) < (5 : ℤ)) :=
  ⟨rfl, by decide⟩

/-! ## C10: small datasets with defaulted nmin always raise -/

/-- C10: for every nonempty dataset with fewer than 20 rows and `nmin` left
unspecified (or explicitly passed as 0, which Python truthiness also replaces
by the default), the default evaluates to `⌊0.05·len⌋ = 0` and the pre-flight
check necessarily fires, since every nonempty dataset has a coincidence group
of size at least 1 > 0. -/
theorem c10_small_default_always_raises (df : List Point)
    (nmOpt nxOpt : Option ℤ) (hne : df ≠ []) (hlen : df.length < 20)
    (hopt : nmOpt = none ∨ nmOpt = some 0) :
    resolveNmin df nmOpt = 0 ∧ 1 ≤ maxColoc df ∧
      aggQuad df nmOpt nxOpt = .error (.configError 0 (maxColoc df)) := by
  have hdiv : (df.length : ℤ) * 5 / 100 = 0 := by
    apply Int.ediv_eq_zero_of_lt
    · positivity
    · have : (df.length : ℤ) ≤ 19 := by exact_mod_cast Nat.lt_succ_iff.mp hlen
      linarith
  have h0 : resolveNmin df nmOpt = 0 := by
    rcases hopt with h | h <;> subst h <;>
      simp [resolveNmin, hdiv]
  have h1 : 1 ≤ maxColoc df := one_le_maxColoc df hne
  refine ⟨h0, h1, ?_⟩
  have := aggQuad_eq_error df nmOpt nxOpt hne
    (by rw [h0]; exact_mod_cast h1)
  rwa [h0] at this

/-- Witness for C10: a single-point dataset with `nmin` unspecified raises
the configuration error naming the defaulted 0 and the observed count 1. -/
theorem c10_small_default_always_raises_witness :
    resolveNmin dfOne none = 0 ∧ 1 ≤ maxColoc dfOne ∧
      aggQuad dfOne none none = .error (.configError 0 (maxColoc dfOne)) :=
  c10_small_default_always_raises dfOne none none (by decide) (by decide) (Or.inl rfl)

/-! ## Rational separation bounds -/

theorem init_le_foldr_max (l : List ℕ) (b : ℕ) : b ≤ l.foldr max b := by
  induction l with
  | nil => exact le_refl b
  | cons x xs ih => exact le_trans ih (le_max_right _ _)

theorem foldr_min_le_init (l : List ℚ) (b : ℚ) : l.foldr min b ≤ b := by
  induction l with
  | nil => exact le_refl b
  | cons x xs ih => exact le_trans (min_le_right _ _) ih

theorem foldr_min_le_mem (l : List ℚ) (b : ℚ) : ∀ a ∈ l, l.foldr min b ≤ a := by
  induction l with
  | nil => intro a ha; exact absurd ha (List.not_mem_nil a)
  | cons x xs ih =>
    intro a ha
    rcases List.mem_cons.mp ha with rfl | ha
    · exact min_le_left _ _
    · exact le_trans (min_le_right _ _) (ih a ha)

theorem init_le_foldr_maxQ (l : List ℚ) (b : ℚ) : b ≤ l.foldr max b := by
  induction l with
  | nil => exact le_refl b
  | cons x xs ih => exact le_trans ih (le_max_right _ _)

theorem mem_le_foldr_maxQ (l : List ℚ) (b : ℚ) : ∀ a ∈ l, a ≤ l.foldr max b := by
  induction l with
  | nil => intro a ha; exact absurd ha (List.not_mem_nil a)
  | cons x xs ih =>
    intro a ha
    rcases List.mem_cons.mp ha with rfl | ha
    · exact le_max_left _ _
    · exact le_trans (ih a ha) (le_max_right _ _)

theorem abs_le_natAbs_num (q : ℚ) : |q| ≤ (q.num.natAbs : ℚ) := by
  have hd1 : (1 : ℚ) ≤ (q.den : ℚ) := by exact_mod_cast q.den_pos
  have hd0 : (0 : ℚ) < (q.den : ℚ) := by exact_mod_cast q.den_pos
  have habs : |q| = |(q.num : ℚ)| / (q.den : ℚ) := by
    conv_lhs => rw [← Rat.num_div_den q]
    rw [abs_div, abs_of_pos hd0]
  have hcast : (q.num.natAbs : ℚ) = |(q.num : ℚ)| := by
    rw [Int.cast_natAbs]
    exact_mod_cast rfl
  rw [habs, hcast]
  exact div_le_self (abs_nonneg _) hd1

theorem rat_gap (a b : ℚ) (h : a ≠ b) :
    1 / ((a.den : ℚ) * (b.den : ℚ)) ≤ |a - b| := by
  have hda : (0 : ℚ) < (a.den : ℚ) := by exact_mod_cast a.den_pos
  have hdb : (0 : ℚ) < (b.den : ℚ) := by exact_mod_cast b.den_pos
  have ha : (a.num : ℚ) = a * (a.den : ℚ) :=
    (div_eq_iff (ne_of_gt hda)).mp (Rat.num_div_den a)
  have hb : (b.num : ℚ) = b * (b.den : ℚ) :=
    (div_eq_iff (ne_of_gt hdb)).mp (Rat.num_div_den b)
  have hk : (a - b) * ((a.den : ℚ) * (b.den : ℚ)) =
      ((a.num * (b.den : ℤ) - b.num * (a.den : ℤ) : ℤ) : ℚ) := by
    push_cast
    rw [ha, hb]
    ring
  have hk0 : (a.num * (b.den : ℤ) - b.num * (a.den : ℤ)) ≠ 0 := by
    intro h0
    apply h
    have h1 : (a - b) * ((a.den : ℚ) * (b.den : ℚ)) = 0 := by
      rw [hk, h0]; exact Int.cast_zero
    have h2 : a - b = 0 := by
      rcases mul_eq_zero.mp h1 with h2 | h2
      · exact h2
      · exact absurd h2 (by positivity)
    linarith [h2]
  have hone : (1 : ℚ) ≤ |((a.num * (b.den : ℤ) - b.num * (a.den : ℤ) : ℤ) : ℚ)| := by
    rw [← Int.cast_abs]
    exact_mod_cast Int.one_le_abs hk0
  have heq : |a - b| * ((a.den : ℚ) * (b.den : ℚ)) =
      |((a.num * (b.den : ℤ) - b.num * (a.den : ℤ) : ℤ) : ℚ)| := by
    rw [← hk, abs_mul, abs_of_pos (by positivity : (0:ℚ) < (a.den : ℚ) * (b.den : ℚ))]
  rw [div_le_iff₀ (by positivity : (0:ℚ) < (a.den : ℚ) * (b.den : ℚ))]
  calc (1 : ℚ) ≤ |((a.num * (b.den : ℤ) - b.num * (a.den : ℤ) : ℤ) : ℚ)| := hone
    _ = |a - b| * ((a.den : ℚ) * (b.den : ℚ)) := heq.symm

theorem one_le_denBoundX (P : List Point) : 1 ≤ denBoundX P :=
  init_le_foldr_max _ 1

theorem one_le_denBoundY (P : List Point) : 1 ≤ denBoundY P :=
  init_le_foldr_max _ 1

theorem den_le_denBoundX (P : List Point) (p : Point) (hp : p ∈ P) :
    p.x.den ≤ denBoundX P :=
  le_foldr_max _ 1 _ (List.mem_map_of_mem _ hp)

theorem den_le_denBoundY (P : List Point) (p : Point) (hp : p ∈ P) :
    p.y.den ≤ denBoundY P :=
  le_foldr_max _ 1 _ (List.mem_map_of_mem _ hp)

theorem sepX_pos (P : List Point) : 0 < sepX P := by
  have h : (1 : ℚ) ≤ (denBoundX P : ℚ) := by exact_mod_cast one_le_denBoundX P
  unfold sepX
  positivity

theorem sepY_pos (P : List Point) : 0 < sepY P := by
  have h : (1 : ℚ) ≤ (denBoundY P : ℚ) := by exact_mod_cast one_le_denBoundY P
  unfold sepY
  positivity

theorem sepX_le_gap (P : List Point) (p q : Point) (hp : p ∈ P) (hq : q ∈ P)
    (hne : p.x ≠ q.x) : sepX P ≤ |p.x - q.x| := by
  refine le_trans ?_ (rat_gap p.x q.x hne)
  unfold sepX
  have hda : (0 : ℚ) < (p.x.den : ℚ) := by exact_mod_cast p.x.den_pos
  have hdb : (0 : ℚ) < (q.x.den : ℚ) := by exact_mod_cast q.x.den_pos
  apply one_div_le_one_div_of_le (by positivity)
  have h1 : (p.x.den : ℚ) ≤ (denBoundX P : ℚ) := by
    exact_mod_cast den_le_denBoundX P p hp
  have h2 : (q.x.den : ℚ) ≤ (denBoundX P : ℚ) := by
    exact_mod_cast den_le_denBoundX P q hq
  exact mul_le_mul h1 h2 (le_of_lt hdb) (by positivity)

theorem sepY_le_gap (P : List Point) (p q : Point) (hp : p ∈ P) (hq : q ∈ P)
    (hne : p.y ≠ q.y) : sepY P ≤ |p.y - q.y| := by
  refine le_trans ?_ (rat_gap p.y q.y hne)
  unfold sepY
  have hda : (0 : ℚ) < (p.y.den : ℚ) := by exact_mod_cast p.y.den_pos
  have hdb : (0 : ℚ) < (q.y.den : ℚ) := by exact_mod_cast q.y.den_pos
  apply one_div_le_one_div_of_le (by positivity)
  have h1 : (p.y.den : ℚ) ≤ (denBoundY P : ℚ) := by
    exact_mod_cast den_le_denBoundY P p hp
  have h2 : (q.y.den : ℚ) ≤ (denBoundY P : ℚ) := by
    exact_mod_cast den_le_denBoundY P q hq
  exact mul_le_mul h1 h2 (le_of_lt hdb) (by positivity)

/-! ## Properties of the built root cell -/

theorem mem_datasetBox (p0 : Point) (rest : List Point) :
    ∀ p ∈ p0 :: rest, ptInBox p (datasetBox p0 rest) := by
  intro p hp
  rcases List.mem_cons.mp hp with rfl | hp
  · exact ⟨foldr_min_le_init _ _, init_le_foldr_maxQ _ _,
      foldr_min_le_init _ _, init_le_foldr_maxQ _ _⟩
  · exact ⟨foldr_min_le_mem _ _ _ (List.mem_map_of_mem Point.x hp),
      mem_le_foldr_maxQ _ _ _ (List.mem_map_of_mem Point.x hp),
      foldr_min_le_mem _ _ _ (List.mem_map_of_mem Point.y hp),
      mem_le_foldr_maxQ _ _ _ (List.mem_map_of_mem Point.y hp)⟩

theorem wf_datasetBox (p0 : Point) (rest : List Point) :
    wfBox (datasetBox p0 rest) := by
  obtain ⟨h1, h2, h3, h4⟩ := mem_datasetBox p0 rest p0 (List.mem_cons_self p0 rest)
  exact ⟨le_trans h1 h2, le_trans h3 h4⟩

theorem quadBuild_inv (df : List Point) (qt : Cell) (hq : quadBuild df = .ok qt) :
    qt.pts = df ∧ (∀ p ∈ df, ptInBox p qt.box) ∧ wfBox qt.box := by
  cases df with
  | nil => exact Except.noConfusion hq
  | cons p0 rest =>
    have hqt : ({ box := datasetBox p0 rest, pts := p0 :: rest } : Cell) = qt :=
      Except.ok.inj hq
    subst hqt
    exact ⟨rfl, mem_datasetBox p0 rest, wf_datasetBox p0 rest⟩

/-! ## Sufficiency of the fuel bound -/

theorem width_le_widthNatBound (b : Box) :
    b.xmax - b.xmin ≤ (widthNatBound b : ℚ) := by
  have h1 := abs_le_natAbs_num b.xmax
  have h2 := abs_le_natAbs_num b.xmin
  have h3 : b.xmax ≤ |b.xmax| := le_abs_self _
  have h4 : -b.xmin ≤ |b.xmin| := neg_le_abs _
  have h5 : (widthNatBound b : ℚ) =
      (b.xmax.num.natAbs : ℚ) + (b.xmin.num.natAbs : ℚ) := by
    unfold widthNatBound; push_cast; ring
  rw [h5]
  linarith

theorem height_le_heightNatBound (b : Box) :
    b.ymax - b.ymin ≤ (heightNatBound b : ℚ) := by
  have h1 := abs_le_natAbs_num b.ymax
  have h2 := abs_le_natAbs_num b.ymin
  have h3 : b.ymax ≤ |b.ymax| := le_abs_self _
  have h4 : -b.ymin ≤ |b.ymin| := neg_le_abs _
  have h5 : (heightNatBound b : ℚ) =
      (b.ymax.num.natAbs : ℚ) + (b.ymin.num.natAbs : ℚ) := by
    unfold heightNatBound; push_cast; ring
  rw [h5]
  linarith

theorem fuelBound_sufficient (c : Cell) :
    c.box.xmax - c.box.xmin < sepX c.pts * 2 ^ fuelBound c ∧
    c.box.ymax - c.box.ymin < sepY c.pts * 2 ^ fuelBound c := by
  have hdx : (1 : ℚ) ≤ (denBoundX c.pts : ℚ) := by
    exact_mod_cast one_le_denBoundX c.pts
  have hdy : (1 : ℚ) ≤ (denBoundY c.pts : ℚ) := by
    exact_mod_cast one_le_denBoundY c.pts
  have hx : widthNatBound c.box * denBoundX c.pts * denBoundX c.pts <
      2 ^ fuelBound c := by
    have h1 : widthNatBound c.box * denBoundX c.pts * denBoundX c.pts <
        fuelBound c := by
      unfold fuelBound; omega
    exact lt_trans h1 (Nat.lt_two_pow _)
  have hy : heightNatBound c.box * denBoundY c.pts * denBoundY c.pts <
      2 ^ fuelBound c := by
    have h1 : heightNatBound c.box * denBoundY c.pts * denBoundY c.pts <
        fuelBound c := by
      unfold fuelBound; omega
    exact lt_trans h1 (Nat.lt_two_pow _)
  constructor
  · show c.box.xmax - c.box.xmin < sepX c.pts * 2 ^ fuelBound c
    unfold sepX
    rw [div_mul_eq_mul_div, one_mul,
      lt_div_iff₀ (by positivity : (0:ℚ) < (denBoundX c.pts : ℚ) * (denBoundX c.pts : ℚ))]
    calc (c.box.xmax - c.box.xmin) * ((denBoundX c.pts : ℚ) * (denBoundX c.pts : ℚ))
        ≤ (widthNatBound c.box : ℚ) * ((denBoundX c.pts : ℚ) * (denBoundX c.pts : ℚ)) := by
          apply mul_le_mul_of_nonneg_right (width_le_widthNatBound c.box)
          positivity
      _ = ((widthNatBound c.box * denBoundX c.pts * denBoundX c.pts : ℕ) : ℚ) := by
          push_cast; ring
      _ < ((2 ^ fuelBound c : ℕ) : ℚ) := by exact_mod_cast hx
      _ = (2 : ℚ) ^ fuelBound c := by push_cast; ring
  · show c.box.ymax - c.box.ymin < sepY c.pts * 2 ^ fuelBound c
    unfold sepY
    rw [div_mul_eq_mul_div, one_mul,
      lt_div_iff₀ (by positivity : (0:ℚ) < (denBoundY c.pts : ℚ) * (denBoundY c.pts : ℚ))]
    calc (c.box.ymax - c.box.ymin) * ((denBoundY c.pts : ℚ) * (denBoundY c.pts : ℚ))
        ≤ (heightNatBound c.box : ℚ) * ((denBoundY c.pts : ℚ) * (denBoundY c.pts : ℚ)) := by
          apply mul_le_mul_of_nonneg_right (height_le_heightNatBound c.box)
          positivity
      _ = ((heightNatBound c.box * denBoundY c.pts * denBoundY c.pts : ℕ) : ℚ) := by
          push_cast; ring
      _ < ((2 ^ fuelBound c : ℕ) : ℚ) := by exact_mod_cast hy
      _ = (2 : ℚ) ^ fuelBound c := by push_cast; ring

/-! ## Coincidence arguments -/

theorem allCoincident_of_small (df P : List Point) (B : Box)
    (hsub : P.Sublist df) (hin : ∀ p ∈ P, ptInBox p B)
    (hw : B.xmax - B.xmin < sepX df) (hh : B.ymax - B.ymin < sepY df) :
    allCoincident P := by
  intro p hp q hq
  have hpd : p ∈ df := hsub.subset hp
  have hqd : q ∈ df := hsub.subset hq
  obtain ⟨a1, a2, a3, a4⟩ := hin p hp
  obtain ⟨b1, b2, b3, b4⟩ := hin q hq
  constructor
  · by_contra hne
    have hgap := sepX_le_gap df p q hpd hqd hne
    have habs : |p.x - q.x| ≤ B.xmax - B.xmin := by
      rw [abs_sub_le_iff]; exact ⟨by linarith, by linarith⟩
    linarith
  · by_contra hne
    have hgap := sepY_le_gap df p q hpd hqd hne
    have habs : |p.y - q.y| ≤ B.ymax - B.ymin := by
      rw [abs_sub_le_iff]; exact ⟨by linarith, by linarith⟩
    linarith

theorem length_le_of_allCoincident (df P : List Point) (hsub : P.Sublist df)
    (hco : allCoincident P) (hne : P ≠ []) : P.length ≤ maxColoc df := by
  cases P with
  | nil => exact absurd rfl hne
  | cons p0 rest =>
    have hall : ∀ q ∈ p0 :: rest,
        (fun q => decide (q.x = p0.x ∧ q.y = p0.y)) q = true := by
      intro q hq
      have := hco q hq p0 (List.mem_cons_self p0 rest)
      simpa using this
    have h1 : (p0 :: rest).countP (fun q => decide (q.x = p0.x ∧ q.y = p0.y)) =
        (p0 :: rest).length := List.countP_eq_length.mpr hall
    have h2 := hsub.countP_le (fun q => decide (q.x = p0.x ∧ q.y = p0.y))
    have h3 := coordCount_le_maxColoc df p0 (hsub.subset (List.mem_cons_self p0 rest))
    omega

theorem coincident_count_le_nmax (df P : List Point) (nmin nmax : ℤ)
    (hpos : 0 < nmin) (hmm : nmin ≤ nmax) (hcol : (maxColoc df : ℤ) ≤ nmin)
    (hsub : P.Sublist df) (hco : allCoincident P) : (P.length : ℤ) ≤ nmax := by
  rcases eq_or_ne P [] with rfl | hne
  · simp; linarith
  · have := length_le_of_allCoincident df P hsub hco hne
    have h2 : (P.length : ℤ) ≤ (maxColoc df : ℤ) := by exact_mod_cast this
    linarith

/-! ## Ceiling invariant workhorse -/

theorem partitionFuel_ceiling (df : List Point) (nmin nmax : ℤ)
    (hpos : 0 < nmin) (hmm : nmin ≤ nmax) (hcol : (maxColoc df : ℤ) ≤ nmin) :
    ∀ fuel B P, P.Sublist df → (∀ p ∈ P, ptInBox p B) →
      B.xmax - B.xmin < sepX df * 2 ^ fuel →
      B.ymax - B.ymin < sepY df * 2 ^ fuel →
      ∀ c ∈ partitionFuel nmin nmax fuel B P, (c.n : ℤ) ≤ nmax := by
  intro fuel
  induction fuel with
  | zero =>
    intro B P hsub hin hw hh c hc
    simp only [partitionFuel, List.mem_singleton] at hc
    subst hc
    rw [pow_zero, mul_one] at hw hh
    exact coincident_count_le_nmax df P nmin nmax hpos hmm hcol hsub
      (allCoincident_of_small df P B hsub hin hw hh)
  | succ n ih =>
    intro B P hsub hin hw hh c hc
    have hdims : ∀ ch ∈ splitCell B P,
        ch.box.xmax - ch.box.xmin < sepX df * 2 ^ n ∧
        ch.box.ymax - ch.box.ymin < sepY df * 2 ^ n := by
      intro ch hch
      obtain ⟨d1, d2⟩ := splitCell_dims B P ch hch
      rw [pow_succ] at hw hh
      exact ⟨by linarith, by linarith⟩
    simp only [partitionFuel] at hc
    split_ifs at hc with h1 h2 h3 h4
    · simp only [List.mem_singleton] at hc
      subst hc
      obtain ⟨hx, hy⟩ := h1
      have hco : allCoincident P := by
        intro p hp q hq
        obtain ⟨a1, a2, a3, a4⟩ := hin p hp
        obtain ⟨b1, b2, b3, b4⟩ := hin q hq
        constructor <;> linarith
      exact coincident_count_le_nmax df P nmin nmax hpos hmm hcol hsub hco
    · obtain ⟨ch, hch, hrec⟩ := List.mem_flatMap.mp hc
      exact ih ch.box ch.pts ((splitCell_pts_sublist B P ch hch).trans hsub)
        (splitCell_pts_inBox B P hin ch hch) (hdims ch hch).1 (hdims ch hch).2 c hrec
    · simp only [List.mem_singleton] at hc
      subst hc
      exact le_trans h3 hmm
    · obtain ⟨ch, hch, hrec⟩ := List.mem_flatMap.mp hc
      exact ih ch.box ch.pts ((splitCell_pts_sublist B P ch hch).trans hsub)
        (splitCell_pts_inBox B P hin ch hch) (hdims ch hch).1 (hdims ch hch).2 c hrec
    · simp only [List.mem_singleton] at hc
      subst hc
      exact le_of_not_lt h2

/-! ## Conservation and coverage workhorses -/

theorem joinPts_append (l1 l2 : List Cell) :
    joinPts (l1 ++ l2) = joinPts l1 ++ joinPts l2 := by
  simp [joinPts]

theorem joinPts_flatMap_perm (cs : List Cell) (f : Cell → List Cell)
    (h : ∀ c ∈ cs, List.Perm (joinPts (f c)) c.pts) :
    List.Perm (joinPts (cs.flatMap f)) (joinPts cs) := by
  induction cs with
  | nil => exact List.Perm.refl _
  | cons c cs ih =>
    rw [List.flatMap_cons, joinPts_append]
    have h1 := h c (List.mem_cons_self c cs)
    have h2 := ih (fun d hd => h d (List.mem_cons_of_mem c hd))
    have h3 : joinPts (c :: cs) = c.pts ++ joinPts cs := by simp [joinPts]
    rw [h3]
    exact h1.append h2

theorem partitionFuel_perm (nmin nmax : ℤ) :
    ∀ fuel B P, List.Perm (joinPts (partitionFuel nmin nmax fuel B P)) P := by
  intro fuel
  induction fuel with
  | zero =>
    intro B P
    simp only [partitionFuel, joinPts, List.map_cons, List.map_nil,
      List.flatten_cons, List.flatten_nil, List.append_nil]
    exact List.Perm.refl P
  | succ n ih =>
    intro B P
    simp only [partitionFuel]
    split_ifs with h1 h2 h3 h4
    · simp only [joinPts, List.map_cons, List.map_nil, List.flatten_cons,
        List.flatten_nil, List.append_nil]
      exact List.Perm.refl P
    · exact (joinPts_flatMap_perm _ _ (fun c hc => ih c.box c.pts)).trans
        (splitCell_perm B P)
    · simp only [joinPts, List.map_cons, List.map_nil, List.flatten_cons,
        List.flatten_nil, List.append_nil]
      exact List.Perm.refl P
    · exact (joinPts_flatMap_perm _ _ (fun c hc => ih c.box c.pts)).trans
        (splitCell_perm B P)
    · simp only [joinPts, List.map_cons, List.map_nil, List.flatten_cons,
        List.flatten_nil, List.append_nil]
      exact List.Perm.refl P

theorem coveredBy_flatMap (cs : List Cell) (f : Cell → List Cell) (z : ℚ × ℚ) :
    coveredBy (cs.flatMap f) z ↔ ∃ c ∈ cs, coveredBy (f c) z := by
  simp only [coveredBy, List.mem_flatMap]
  constructor
  · rintro ⟨a, ⟨c, hc, hac⟩, hz⟩
    exact ⟨c, hc, a, hac, hz⟩
  · rintro ⟨c, hc, a, hac, hz⟩
    exact ⟨a, ⟨c, hc, hac⟩, hz⟩

theorem partitionFuel_cover (nmin nmax : ℤ) :
    ∀ fuel B P, wfBox B → ∀ z,
      coveredBy (partitionFuel nmin nmax fuel B P) z ↔ inBox z B := by
  intro fuel
  induction fuel with
  | zero =>
    intro B P hwf z
    simp [partitionFuel, coveredBy]
  | succ n ih =>
    intro B P hwf z
    simp only [partitionFuel]
    split_ifs with h1 h2 h3 h4
    · simp [coveredBy]
    · rw [coveredBy_flatMap, ← splitCell_cover B P hwf z]
      constructor
      · rintro ⟨ch, hch, hcov⟩
        exact ⟨ch, hch,
          (ih ch.box ch.pts (splitCell_wf_sub B P hwf ch hch).1 z).mp hcov⟩
      · rintro ⟨ch, hch, hbox⟩
        exact ⟨ch, hch,
          (ih ch.box ch.pts (splitCell_wf_sub B P hwf ch hch).1 z).mpr hbox⟩
    · simp [coveredBy]
    · rw [coveredBy_flatMap, ← splitCell_cover B P hwf z]
      constructor
      · rintro ⟨ch, hch, hcov⟩
        exact ⟨ch, hch,
          (ih ch.box ch.pts (splitCell_wf_sub B P hwf ch hch).1 z).mp hcov⟩
      · rintro ⟨ch, hch, hbox⟩
        exact ⟨ch, hch,
          (ih ch.box ch.pts (splitCell_wf_sub B P hwf ch hch).1 z).mpr hbox⟩
    · simp [coveredBy]

theorem partitionFuel_wf_sub (nmin nmax : ℤ) :
    ∀ fuel B P, wfBox B →
      ∀ c ∈ partitionFuel nmin nmax fuel B P, wfBox c.box ∧ subBox c.box B := by
  intro fuel
  induction fuel with
  | zero =>
    intro B P hwf c hc
    simp only [partitionFuel, List.mem_singleton] at hc
    subst hc
    exact ⟨hwf, subBox_refl B⟩
  | succ n ih =>
    intro B P hwf c hc
    simp only [partitionFuel] at hc
    split_ifs at hc with h1 h2 h3 h4 <;>
      first
        | (simp only [List.mem_singleton] at hc; subst hc;
           exact ⟨hwf, subBox_refl B⟩)
        | (obtain ⟨ch, hch, hrec⟩ := List.mem_flatMap.mp hc
           obtain ⟨hwfc, hsubc⟩ := splitCell_wf_sub B P hwf ch hch
           obtain ⟨hw, hs⟩ := ih ch.box ch.pts hwfc c hrec
           exact ⟨hw, subBox_trans hs hsubc⟩)

theorem pairwise_intDisj_flatMap (cs : List Cell) (f : Cell → List Cell)
    (hin : ∀ c ∈ cs, ∀ a ∈ f c, subBox a.box c.box)
    (hpair : ∀ c ∈ cs, List.Pairwise intDisj (f c))
    (hsep : List.Pairwise (fun a b => sideSep a.box b.box) cs) :
    List.Pairwise intDisj (cs.flatMap f) := by
  induction cs with
  | nil => exact List.Pairwise.nil
  | cons c cs ih =>
    rw [List.flatMap_cons, List.pairwise_append]
    obtain ⟨hsep1, hsep2⟩ := List.pairwise_cons.mp hsep
    refine ⟨hpair c (List.mem_cons_self c cs),
      ih (fun d hd => hin d (List.mem_cons_of_mem c hd))
        (fun d hd => hpair d (List.mem_cons_of_mem c hd)) hsep2, ?_⟩
    intro a ha b hb
    obtain ⟨d, hd, hbd⟩ := List.mem_flatMap.mp hb
    exact intDisj_of_sideSep (hin c (List.mem_cons_self c cs) a ha)
      (hin d (List.mem_cons_of_mem c hd) b hbd) (hsep1 d hd)

theorem partitionFuel_disj (nmin nmax : ℤ) :
    ∀ fuel B P, wfBox B →
      List.Pairwise intDisj (partitionFuel nmin nmax fuel B P) := by
  intro fuel
  induction fuel with
  | zero =>
    intro B P hwf
    simp only [partitionFuel]
    exact List.Pairwise.cons (fun b hb => absurd hb (List.not_mem_nil b))
      List.Pairwise.nil
  | succ n ih =>
    intro B P hwf
    simp only [partitionFuel]
    split_ifs with h1 h2 h3 h4 <;>
      first
        | exact List.Pairwise.cons (fun b hb => absurd hb (List.not_mem_nil b))
            List.Pairwise.nil
        | exact pairwise_intDisj_flatMap _ _
            (fun ch hch a ha =>
              (partitionFuel_wf_sub nmin nmax n ch.box ch.pts
                (splitCell_wf_sub B P hwf ch hch).1 a ha).2)
            (fun ch hch => ih ch.box ch.pts (splitCell_wf_sub B P hwf ch hch).1)
            (splitCell_sideSep B P)

/-! ## Floor invariant workhorse (annotated partitioner) -/

theorem flatMap_congr {α β : Type} (l : List α) (f g : α → List β)
    (h : ∀ a ∈ l, f a = g a) : l.flatMap f = l.flatMap g := by
  induction l with
  | nil => rfl
  | cons a l ih =>
    rw [List.flatMap_cons, List.flatMap_cons, h a (List.mem_cons_self a l),
      ih (fun b hb => h b (List.mem_cons_of_mem a hb))]

theorem partitionAnn_fst (nmin nmax : ℤ) :
    ∀ fuel (f : Bool) B P,
      (partitionAnn nmin nmax f fuel B P).map Prod.fst =
        partitionFuel nmin nmax fuel B P := by
  intro fuel
  induction fuel with
  | zero => intro f B P; rfl
  | succ n ih =>
    intro f B P
    simp only [partitionAnn, partitionFuel]
    split_ifs with h1 h2 h3 h4
    · rfl
    · rw [List.map_flatMap]
      exact flatMap_congr _ _ _ (fun c hc => ih true c.box c.pts)
    · rfl
    · rw [List.map_flatMap]
      exact flatMap_congr _ _ _ (fun c hc => ih f c.box c.pts)
    · rfl

theorem partitionAnn_floor (nmin nmax : ℤ) :
    ∀ fuel (f : Bool) B P, ∀ cb ∈ partitionAnn nmin nmax f fuel B P,
      nmin ≤ (cb.1.n : ℤ) ∨ allCoincident cb.1.pts ∨ cb.2 = true ∨
        (cb.2 = f ∧ cb.1.box = B ∧ cb.1.pts = P) := by
  intro fuel
  induction fuel with
  | zero =>
    intro f B P cb hcb
    simp only [partitionAnn, List.mem_singleton] at hcb
    subst hcb
    exact Or.inr (Or.inr (Or.inr ⟨rfl, rfl, rfl⟩))
  | succ n ih =>
    intro f B P cb hcb
    simp only [partitionAnn] at hcb
    split_ifs at hcb with h1 h2 h3 h4
    · simp only [List.mem_singleton] at hcb
      subst hcb
      exact Or.inr (Or.inr (Or.inr ⟨rfl, rfl, rfl⟩))
    · obtain ⟨ch, hch, hrec⟩ := List.mem_flatMap.mp hcb
      rcases ih true ch.box ch.pts cb hrec with h | h | h | ⟨hf, hb, hp⟩
      · exact Or.inl h
      · exact Or.inr (Or.inl h)
      · exact Or.inr (Or.inr (Or.inl h))
      · exact Or.inr (Or.inr (Or.inl hf))
    · simp only [List.mem_singleton] at hcb
      subst hcb
      exact Or.inr (Or.inr (Or.inr ⟨rfl, rfl, rfl⟩))
    · obtain ⟨ch, hch, hrec⟩ := List.mem_flatMap.mp hcb
      rcases ih f ch.box ch.pts cb hrec with h | h | h | ⟨hf, hb, hp⟩
      · exact Or.inl h
      · exact Or.inr (Or.inl h)
      · exact Or.inr (Or.inr (Or.inl h))
      · have hall := List.all_eq_true.mp h4 ch hch
        rcases Bool.or_eq_true_iff.mp hall with he | hn
        · refine Or.inr (Or.inl ?_)
          have hemp : ch.pts = [] := List.isEmpty_iff.mp he
          rw [hp, hemp]
          intro p hp2
          exact absurd hp2 (List.not_mem_nil p)
        · refine Or.inl ?_
          have hlen : nmin ≤ (ch.pts.length : ℤ) := of_decide_eq_true hn
          have hn2 : cb.1.n = ch.pts.length := by
            show cb.1.pts.length = ch.pts.length
            rw [hp]
          rw [hn2]
          exact hlen
    · simp only [List.mem_singleton] at hcb
      subst hcb
      exact Or.inl (le_of_lt (not_le.mp h3))

/-! ## C2: ceiling invariant -/

/-- C2: for every valid input (nonempty dataset passing the pre-flight
coincidence check, valid thresholds `0 < nmin ≤ nmax`), every leaf cell
returned by `partition nmin nmax` holds at most `nmax` points, without
exception: an over-full cell is always split (forced splits included), so no
leaf can exceed the ceiling. -/
theorem c2_ceiling_invariant (df : List Point) (nmin nmax : ℤ) (qt : Cell)
    (hpos : 0 < nmin) (hmm : nmin ≤ nmax) (hcol : (maxColoc df : ℤ) ≤ nmin)
    (hq : quadBuild df = .ok qt) :
    ∀ c ∈ partition nmin nmax qt, (c.n : ℤ) ≤ nmax := by
  obtain ⟨hpts, hin, hwf⟩ := quadBuild_inv df qt hq
  obtain ⟨hfx, hfy⟩ := fuelBound_sufficient qt
  rw [hpts] at hfx hfy
  intro c hc
  refine partitionFuel_ceiling df nmin nmax hpos hmm hcol (fuelBound qt)
    qt.box qt.pts ?_ ?_ hfx hfy c hc
  · rw [hpts]
  · intro p hp
    exact hin p (by rw [← hpts]; exact hp)

/-- Witness for C2: two distinct points with `nmin = 2`, `nmax = 3`; the
partition returns the root as its single leaf, with 2 ≤ 3 points. -/
theorem c2_ceiling_invariant_witness :
    ((⟨⟨0, 1, 0, 1⟩, dfPair⟩ : Cell).n : ℤ) ≤ 3 ∧
      (⟨⟨0, 1, 0, 1⟩, dfPair⟩ : Cell) ∈ partition 2 3 qtPair :=
  ⟨c2_ceiling_invariant dfPair 2 3 qtPair (by decide) (by decide) (by decide)
      rfl ⟨⟨0, 1, 0, 1⟩, dfPair⟩ (by decide),
    by decide⟩

/-! ## C3: conservation -/

/-- C3: for every input, the leaves returned by `partition` carry exactly the
input points: their concatenated point lists are a permutation of the
dataset, the counts `n` sum to the total point count, and every point record
occurs across the leaves exactly as often as in the input (no duplication, no
omission, midpoint ties included). -/
theorem c3_conservation (df : List Point) (nmin nmax : ℤ) (qt : Cell)
    (hq : quadBuild df = .ok qt) :
    List.Perm (joinPts (partition nmin nmax qt)) df ∧
    ((partition nmin nmax qt).map Cell.n).sum = df.length ∧
    ∀ p : Point, (joinPts (partition nmin nmax qt)).count p = df.count p := by
  obtain ⟨hpts, -, -⟩ := quadBuild_inv df qt hq
  have hperm : List.Perm (joinPts (partition nmin nmax qt)) df := by
    rw [← hpts]
    exact partitionFuel_perm nmin nmax (fuelBound qt) qt.box qt.pts
  refine ⟨hperm, ?_, fun p => hperm.count_eq p⟩
  have hlen := hperm.length_eq
  have hjoin : (joinPts (partition nmin nmax qt)).length =
      ((partition nmin nmax qt).map Cell.n).sum := by
    simp only [joinPts, List.length_flatten, List.map_map]
    rfl
  omega

/-- Witness for C3: conservation at the two-point dataset. -/
theorem c3_conservation_witness :
    List.Perm (joinPts (partition 2 3 qtPair)) dfPair ∧
      ((partition 2 3 qtPair).map Cell.n).sum = dfPair.length :=
  ⟨(c3_conservation dfPair 2 3 qtPair rfl).1,
    (c3_conservation dfPair 2 3 qtPair rfl).2.1⟩

/-! ## C4: coverage -/

/-- C4: for every valid input, the union of the leaf bounding boxes returned
by `partition` equals the root bounding box exactly, leaf interiors are
pairwise disjoint (overlap at most along shared edges), and the root box is
precisely the dataset bounding box computed by the Spatial Index. -/
theorem c4_coverage (df : List Point) (nmin nmax : ℤ) (p0 : Point)
    (rest : List Point) (qt : Cell) (hdf : df = p0 :: rest)
    (hq : quadBuild df = .ok qt) :
    cellUnion (partition nmin nmax qt) = boxSet qt.box ∧
    List.Pairwise intDisj (partition nmin nmax qt) ∧
    qt.box = datasetBox p0 rest := by
  obtain ⟨-, -, hwf⟩ := quadBuild_inv df qt hq
  refine ⟨?_, partitionFuel_disj nmin nmax (fuelBound qt) qt.box qt.pts hwf, ?_⟩
  · ext z
    exact partitionFuel_cover nmin nmax (fuelBound qt) qt.box qt.pts hwf z
  · subst hdf
    have h := Except.ok.inj hq
    rw [← h]

/-- Witness for C4: coverage and disjointness at the two-point dataset. -/
theorem c4_coverage_witness :
    cellUnion (partition 2 3 qtPair) = boxSet qtPair.box ∧
      List.Pairwise intDisj (partition 2 3 qtPair) :=
  ⟨(c4_coverage dfPair 2 3 ⟨0, 0, 0⟩ [⟨1, 1, 1⟩] qtPair rfl rfl).1,
    (c4_coverage dfPair 2 3 ⟨0, 0, 0⟩ [⟨1, 1, 1⟩] qtPair rfl rfl).2.1⟩

/-! ## C5: floor invariant (corrected) -/

/-- Counterexample to C5 as stated: two distinct points, valid thresholds
`nmin = nmax = 5` (0 < 5 ≤ 5), pre-flight check passed (largest coincidence
group 1 ≤ 5).  The partitioner returns a single leaf: the root itself, with
provenance flag `false` (no split, in particular no ceiling-forced split, was
ever performed), holding 2 < 5 points that do not share one coordinate.  The
leaf satisfies none of the claim's three disjuncts. -/
theorem c5_floor_counterexample :
    partitionAnn 5 5 false (fuelBound qtPair) qtPair.box qtPair.pts =
      [(⟨⟨0, 1, 0, 1⟩, dfPair⟩, false)] ∧
    (0 : ℤ) < 5 ∧ (5 : ℤ) ≤ 5 ∧ (maxColoc dfPair : ℤ) ≤ 5 ∧
    ¬ (5 : ℤ) ≤ ((⟨⟨0, 1, 0, 1⟩, dfPair⟩ : Cell).n : ℤ) ∧
    ¬ allCoincident dfPair := by
  refine ⟨by decide, by decide, by decide, by decide, by decide, by decide⟩

/-- C5 amended: erasing the provenance flags of the annotated partitioner
recovers `partition`, and every annotated leaf either holds at least `nmin`
points, or all of its points share one exact coordinate (vacuously so for
empty leaves), or it lies below a split forced by the `nmax` ceiling rule
(flag `true`), or it is the root cell itself (a whole dataset of at most
`nmin` points never splits). -/
theorem c5_floor_amended (nmin nmax : ℤ) (qt : Cell) :
    ((partitionAnn nmin nmax false (fuelBound qt) qt.box qt.pts).map Prod.fst =
      partition nmin nmax qt) ∧
    ∀ cb ∈ partitionAnn nmin nmax false (fuelBound qt) qt.box qt.pts,
      nmin ≤ (cb.1.n : ℤ) ∨ allCoincident cb.1.pts ∨ cb.2 = true ∨
        (cb.1.box = qt.box ∧ cb.1.pts = qt.pts) := by
  refine ⟨partitionAnn_fst nmin nmax (fuelBound qt) false qt.box qt.pts, ?_⟩
  intro cb hcb
  rcases partitionAnn_floor nmin nmax (fuelBound qt) false qt.box qt.pts cb hcb
    with h | h | h | ⟨-, hb, hp⟩
  · exact Or.inl h
  · exact Or.inr (Or.inl h)
  · exact Or.inr (Or.inr (Or.inl h))
  · exact Or.inr (Or.inr (Or.inr ⟨hb, hp⟩))

/-- Witness for C5 (amended), at the two-point dataset with `nmin = 2`,
`nmax = 3`: the single annotated leaf is the root cell. -/
theorem c5_floor_amended_witness :
    (2 : ℤ) ≤ ((⟨⟨0, 1, 0, 1⟩, dfPair⟩ : Cell).n : ℤ) ∨
      allCoincident (⟨⟨0, 1, 0, 1⟩, dfPair⟩ : Cell).pts ∨ false = true ∨
      ((⟨⟨0, 1, 0, 1⟩, dfPair⟩ : Cell).box = qtPair.box ∧
        (⟨⟨0, 1, 0, 1⟩, dfPair⟩ : Cell).pts = qtPair.pts) :=
  (c5_floor_amended 2 3 qtPair).2 (⟨⟨0, 1, 0, 1⟩, dfPair⟩, false) (by decide)
